import Mathlib

/-!
Verification of the PaDiM anomaly-detection script
(src/anomaly_detection/padim/padim.py) against its specification.

The numeric pipeline is shallowly embedded over exact rationals:
numpy arrays become functions out of `Fin` types, the batched training
loop of `get_train_outputs` becomes a fold over a list of batches, and
the scoring / normalization / threshold-selection steps of
`recognize_from_image` become pure functions.  External library
primitives whose float kernels have no exact rational meaning
(PIL bilinear resize, scipy gaussian_filter) are taken as opaque
function parameters of the pipeline; everything the claims quantify
over is embedded exactly.
-/

namespace Padim

/-- Constant IMAGE_RESIZE = 256 from padim.py. -/
def IMAGE_RESIZE : ℤ := 256

/-- Constant IMAGE_SIZE = 224 from padim.py. -/
def IMAGE_SIZE : ℤ := 224

/-- One embedding sample after `embedding_vectors.reshape(B, C, H * W)`:
channel index `Fin C`, flattened spatial location index `Fin P` (P = H*W). -/
abbrev EmbVec (C P : ℕ) := Fin C → Fin P → ℚ

/-- Accumulation state of the training loop in `get_train_outputs`:
`n` is the running sample count N, `meanAcc` the running sum called
`mean` in the code (it is only divided by N after the loop), and
`covAcc` the running covariance accumulator `cov`. -/
structure TrainState (C P : ℕ) where
  n : ℕ
  meanAcc : Fin C → Fin P → ℚ
  covAcc : Fin P → Matrix (Fin C) (Fin C) ℚ

/-- Sum of a batch of embedding vectors at channel `c`, location `p`;
models `np.sum(embedding_vectors, axis=0)`. -/
def batchSum {C P : ℕ} (batch : List (EmbVec C P)) (c : Fin C) (p : Fin P) : ℚ :=
  (batch.map fun v => v c p).sum

/-- One iteration of the training loop body (padim.py lines 237-280):
`N += len(imgs)`, `mean += np.sum(embedding_vectors, axis=0)`, and for
every location `i`, `m = embedding_vectors[:, :, i] - mean[:, [i]].T / N`
followed by `cov[:, :, i] += m.T @ m`.  Note the centering uses the
running mean `mean / N` at the current point, as in the code. -/
def stepBatch {C P : ℕ} (st : TrainState C P) (batch : List (EmbVec C P)) : TrainState C P :=
  let n : ℕ := st.n + batch.length
  let meanAcc : Fin C → Fin P → ℚ := fun c p => st.meanAcc c p + batchSum batch c p
  let covAcc : Fin P → Matrix (Fin C) (Fin C) ℚ := fun p =>
    st.covAcc p + Matrix.of fun a b =>
      (batch.map fun v =>
        (v a p - meanAcc a p / (n : ℚ)) * (v b p - meanAcc b p / (n : ℚ))).sum
  ⟨n, meanAcc, covAcc⟩

/-- Initial accumulation state (`mean = np.zeros(...)`, `cov = np.zeros(...)`,
`N = 0`); the code allocates the zero arrays lazily on the first batch,
which is equivalent. -/
def initState (C P : ℕ) : TrainState C P :=
  ⟨0, fun _ _ => 0, fun _ => 0⟩

/-- Run of the whole training loop of `get_train_outputs` over the list of
batches (the flattened iteration over augmentation laps and batch starts). -/
def runTrain {C P : ℕ} (batches : List (List (EmbVec C P))) : TrainState C P :=
  batches.foldl stepBatch (initState C P)

/-- Final mean returned by `get_train_outputs`: `mean = mean / N` (line 282). -/
def trainMean {C P : ℕ} (batches : List (List (EmbVec C P))) (c : Fin C) (p : Fin P) : ℚ :=
  (runTrain batches).meanAcc c p / ((runTrain batches).n : ℚ)

/-- The accumulated covariance matrix at location `p` divided by N-1
(the `cov[:, :, i] / (N - 1)` part of line 286, before regularization). -/
def streamedCov {C P : ℕ} (batches : List (List (EmbVec C P))) (p : Fin P) :
    Matrix (Fin C) (Fin C) ℚ :=
  Matrix.of fun a b =>
    (runTrain batches).covAcc p a b / (((runTrain batches).n : ℚ) - 1)

/-- Reference (non-streaming) sample covariance, written from the words of
the spec and claim C1: the standard sample covariance of all N embedding
vectors at location `p`, computed with the final mean and divided by N-1. -/
def referenceSampleCov {C P : ℕ} (samples : List (EmbVec C P)) (p : Fin P) :
    Matrix (Fin C) (Fin C) ℚ :=
  Matrix.of fun a b =>
    (samples.map fun v =>
      (v a p - (samples.map fun u => u a p).sum / (samples.length : ℚ)) *
      (v b p - (samples.map fun u => u b p).sum / (samples.length : ℚ))).sum /
    ((samples.length : ℚ) - 1)

lemma foldl_stepBatch_n {C P : ℕ} (batches : List (List (EmbVec C P))) :
    ∀ st : TrainState C P,
      (batches.foldl stepBatch st).n = st.n + batches.flatten.length := by
  induction batches with
  | nil => intro st; simp
  | cons b bs ih =>
      intro st
      simp [List.foldl_cons, ih, stepBatch, Nat.add_assoc]

lemma foldl_stepBatch_meanAcc {C P : ℕ} (batches : List (List (EmbVec C P)))
    (c : Fin C) (p : Fin P) :
    ∀ st : TrainState C P,
      (batches.foldl stepBatch st).meanAcc c p =
        st.meanAcc c p + (batches.flatten.map fun v => v c p).sum := by
  induction batches with
  | nil => intro st; simp
  | cons b bs ih =>
      intro st
      simp [List.foldl_cons, ih, stepBatch, batchSum, add_assoc]

lemma runTrain_n {C P : ℕ} (batches : List (List (EmbVec C P))) :
    (runTrain batches).n = batches.flatten.length := by
  simpa [runTrain, initState] using foldl_stepBatch_n batches (initState C P)

lemma runTrain_meanAcc {C P : ℕ} (batches : List (List (EmbVec C P)))
    (c : Fin C) (p : Fin P) :
    (runTrain batches).meanAcc c p = (batches.flatten.map fun v => v c p).sum := by
  simpa [runTrain, initState] using foldl_stepBatch_meanAcc batches c p (initState C P)

/-- C2: for every non-empty training set, N counts every processed sample
(every image over every augmentation lap) and the mean returned by
`get_train_outputs` at channel `c`, location `p` is the accumulated sum
divided by N, i.e. the arithmetic mean of all N embedding vectors there. -/
theorem trainMean_eq_arithmeticMean {C P : ℕ} (batches : List (List (EmbVec C P)))
    (hne : batches.flatten ≠ []) (c : Fin C) (p : Fin P) :
    (runTrain batches).n = batches.flatten.length ∧
    trainMean batches c p =
      (batches.flatten.map fun v => v c p).sum / (batches.flatten.length : ℚ) := by
  refine ⟨runTrain_n batches, ?_⟩
  rw [trainMean, runTrain_meanAcc, runTrain_n]

/-- Witness for C2 at a concrete two-sample training set. -/
theorem trainMean_eq_arithmeticMean_witness :
    trainMean [[fun _ _ => (1 : ℚ)], [fun _ _ => 3]] (0 : Fin 1) (0 : Fin 1) = 2 := by
  have h := trainMean_eq_arithmeticMean
    [[fun _ _ => (1 : ℚ)], [fun _ _ => 3]] (by decide) (0 : Fin 1) (0 : Fin 1)
  rw [h.2]
  norm_num

/-- Concrete two-batch training run used to refute C1: one sample of value 0
in the first batch, one sample of value 2 in the second batch, with a single
channel and a single spatial location. -/
def cexBatches : List (List (EmbVec 1 1)) := [[fun _ _ => 0], [fun _ _ => 2]]

/-- C1 counterexample: on `cexBatches` the streamed accumulator divided by
N-1 gives 1, while the reference sample covariance of the same two samples
is 2, so the batched streaming accumulation is not equivalent to the
reference sample covariance. -/
theorem streamedCov_ne_referenceSampleCov :
    streamedCov cexBatches 0 ≠ referenceSampleCov cexBatches.flatten 0 := by
  intro h
  have h00 := congrFun (congrFun h 0) 0
  simp [streamedCov, referenceSampleCov, cexBatches, runTrain, initState,
    stepBatch, batchSum, Matrix.of_apply] at h00
  norm_num at h00

/-- C1 amended: when all training samples are processed in a single batch,
the streamed accumulator divided by N-1 does equal the reference sample
covariance (the batch is then centered by the final mean). -/
theorem streamedCov_singleBatch_eq_referenceSampleCov {C P : ℕ}
    (batch : List (EmbVec C P)) (p : Fin P) :
    streamedCov [batch] p = referenceSampleCov batch p := by
  ext a b
  simp [streamedCov, referenceSampleCov, runTrain, initState, stepBatch,
    batchSum, Matrix.of_apply]

/-- Train outputs stored (and pickled) by `get_train_outputs`:
`train_outputs = [mean, cov]` (line 288). -/
structure TrainOutputs (C P : ℕ) where
  mean : Fin C → Fin P → ℚ
  cov : Fin P → Matrix (Fin C) (Fin C) ℚ

/-- Regularized covariance stored at location `p`:
`cov[:, :, i] = (cov[:, :, i] / (N - 1)) + 0.01 * I` (line 286). -/
def regularizedCov {C P : ℕ} (batches : List (List (EmbVec C P))) (p : Fin P) :
    Matrix (Fin C) (Fin C) ℚ :=
  streamedCov batches p + (1 / 100 : ℚ) • (1 : Matrix (Fin C) (Fin C) ℚ)

/-- Result of `get_train_outputs` (training branch): the mean divided by N
and the Tikhonov-regularized covariance per location. -/
def getTrainOutputs {C P : ℕ} (batches : List (List (EmbVec C P))) : TrainOutputs C P :=
  ⟨trainMean batches, regularizedCov batches⟩

/-- Model of `np.linalg.inv` on an invertible rational matrix:
the inverse computed through the adjugate formula. -/
def matInv {C : ℕ} (A : Matrix (Fin C) (Fin C) ℚ) : Matrix (Fin C) (Fin C) ℚ :=
  (A.det)⁻¹ • A.adjugate

/-- Quadratic form uᵀ M u. -/
def quadForm {C : ℕ} (M : Matrix (Fin C) (Fin C) ℚ) (u : Fin C → ℚ) : ℚ :=
  ∑ a : Fin C, ∑ b : Fin C, u a * M a b * u b

/-- Squared Mahalanobis distance: `scipy.spatial.distance.mahalanobis(u, v, VI)`
returns the square root of this quantity; the square root (a float, irrational
in general) is kept outside the rational embedding, and the claims about which
matrix and vectors enter the distance are stated on the square. -/
def mahalanobisSq {C : ℕ} (u v : Fin C → ℚ) (VI : Matrix (Fin C) (Fin C) ℚ) : ℚ :=
  quadForm VI (fun c => u c - v c)

/-- Squared distance computed by the scoring loop of `recognize_from_image`
(lines 499-505): at location `i`, `mean = train_outputs[0][:, i]`,
`conv_inv = np.linalg.inv(train_outputs[1][:, :, i])`, and
`dist = mahalanobis(sample[:, i], mean, conv_inv)`. -/
def scoreDistSq {C P : ℕ} (t : TrainOutputs C P) (emb : EmbVec C P) (p : Fin P) : ℚ :=
  mahalanobisSq (fun c => emb c p) (fun c => t.mean c p) (matInv (t.cov p))

/-- C3: the covariance stored by `get_train_outputs` at location `p` is the
accumulated matrix divided by N-1 plus 0.01 times the identity, and
`recognize_from_image` scores a test sample at `p` by the Mahalanobis
distance between its embedding vector and the stored mean using the matrix
inverse of exactly that regularized covariance (`matInv` genuinely inverts
it whenever its determinant is nonzero). -/
theorem scoreDistSq_uses_regularizedCov {C P : ℕ}
    (batches : List (List (EmbVec C P))) (emb : EmbVec C P) (p : Fin P)
    (hdet : ((getTrainOutputs batches).cov p).det ≠ 0) :
    (getTrainOutputs batches).cov p =
      streamedCov batches p + (1 / 100 : ℚ) • (1 : Matrix (Fin C) (Fin C) ℚ) ∧
    scoreDistSq (getTrainOutputs batches) emb p =
      quadForm (matInv (regularizedCov batches p))
        (fun c => emb c p - trainMean batches c p) ∧
    (getTrainOutputs batches).cov p * matInv ((getTrainOutputs batches).cov p) = 1 := by
  refine ⟨rfl, rfl, ?_⟩
  have h1 : (getTrainOutputs batches).cov p * matInv ((getTrainOutputs batches).cov p) =
      (((getTrainOutputs batches).cov p).det)⁻¹ •
        ((getTrainOutputs batches).cov p * ((getTrainOutputs batches).cov p).adjugate) :=
    Matrix.mul_smul _ _ _
  rw [h1, Matrix.mul_adjugate, smul_smul, inv_mul_cancel₀ hdet, one_smul]

/-- Witness for C3: a one-channel, one-location training run with a single
sample of value 2; the stored covariance is the 1x1 matrix 0.01, whose
determinant is nonzero, and the conclusion is obtained by applying the
theorem there. -/
theorem scoreDistSq_uses_regularizedCov_witness :
    (getTrainOutputs [[fun _ _ => (2 : ℚ)]] : TrainOutputs 1 1).cov 0 *
      matInv ((getTrainOutputs [[fun _ _ => (2 : ℚ)]] : TrainOutputs 1 1).cov 0) = 1 :=
  (scoreDistSq_uses_regularizedCov [[fun _ _ => (2 : ℚ)]] (fun _ _ => 3) 0
    (by
      have h : ((getTrainOutputs [[fun _ _ => (2 : ℚ)]] : TrainOutputs 1 1).cov 0).det
          = 1 / 100 := by
        simp [Matrix.det_fin_one, getTrainOutputs, regularizedCov, streamedCov,
          runTrain, initState, stepBatch, batchSum, Matrix.of_apply,
          Matrix.add_apply, Matrix.smul_apply, Matrix.one_apply]
      rw [h]; norm_num)).2.2

/-- Model of `np.random.randint(low, high)`: a draw from the integer range
[low, high), represented as low plus the remainder of an arbitrary value of
the underlying random state modulo the size of the range. -/
def npRandint (low high : ℤ) (state : ℕ) : ℤ :=
  low + (state : ℤ) % (high - low)

/-- Rotation angle drawn in `preprocess_aug` (line 148):
`angle = np.random.randint(angle_range[0], angle_range[0] + 1)`. -/
def augAngle (angleRange : ℤ × ℤ) (state : ℕ) : ℤ :=
  npRandint angleRange.1 (angleRange.1 + 1) state

/-- C8: the rotation angle drawn by `preprocess_aug` is constant: for every
angle range and every random state it equals the lower bound of the range
(the draw is from the one-element range [lo, lo+1)), and in particular with
the default range [-10, 10] every augmented image is rotated by exactly
-10 degrees. -/
theorem augAngle_constant (angleRange : ℤ × ℤ) (state : ℕ) :
    augAngle angleRange state = angleRange.1 ∧
    augAngle (-10, 10) state = -10 := by
  constructor
  · simp [augAngle, npRandint]
  · simp [augAngle, npRandint]

/-- Padding amounts computed by the augmentation-reversal loop of
`recognize_from_image` (lines 528-531) for image `i`:
`pad_top = pad_h_list[i]`, `pad_left = pad_w_list[i]`, but
`pad_bottom = IMAGE_RESIZE - IMAGE_SIZE - pad_h` and
`pad_right = IMAGE_RESIZE - IMAGE_SIZE - pad_w`, where `pad_h` and `pad_w`
are the stale loop variables still holding the crop offsets of the LAST
image processed by the preprocessing loop, i.e. the last elements of
`pad_h_list` and `pad_w_list`. -/
def reversePad (padHList padWList : List ℤ) (i : ℕ) : ℤ × ℤ × ℤ × ℤ :=
  (padHList.getD i 0,
   IMAGE_RESIZE - IMAGE_SIZE - padHList.getLastD 0,
   padWList.getD i 0,
   IMAGE_RESIZE - IMAGE_SIZE - padWList.getLastD 0)

/-- Height of the array produced by `np.pad(score_map_tmp, ((pad_top,
pad_bottom), (pad_left, pad_right)))` for image `i`: the upsampled map has
IMAGE_SIZE rows and gains `pad_top + pad_bottom` rows. -/
def reversePaddedHeight (padHList : List ℤ) (i : ℕ) : ℤ :=
  (reversePad padHList padHList i).1 + IMAGE_SIZE + (reversePad padHList padHList i).2.1

/-- C4 (code bug): with two augmented test images whose recorded crop row
offsets are 0 and 10, the reversal loop pads image 0 with
`pad_bottom = 256 - 224 - 10 = 22` taken from the stale offset of the last
image instead of the complementary 32, so the padded map has 246 rows, not
IMAGE_RESIZE = 256: the recorded forward augmentation is not inverted. -/
theorem reversePad_usesStaleOffset_bug :
    reversePaddedHeight [0, 10] 0 = 246 ∧ reversePaddedHeight [0, 10] 0 ≠ IMAGE_RESIZE := by
  constructor
  · decide
  · decide

/-- Model of `np.ndarray.max()` on a nonempty array. -/
def npMax {ι : Type} [Fintype ι] [Nonempty ι] (f : ι → ℚ) : ℚ :=
  Finset.univ.sup' Finset.univ_nonempty f

/-- Model of `np.ndarray.min()` on a nonempty array. -/
def npMin {ι : Type} [Fintype ι] [Nonempty ι] (f : ι → ℚ) : ℚ :=
  Finset.univ.inf' Finset.univ_nonempty f

/-- View of a stack of score maps as one flat array, as numpy reductions
without an axis argument see it. -/
def uncurry3 {n h w : ℕ} (m : Fin n → Fin h → Fin w → ℚ) :
    Fin n × Fin h × Fin w → ℚ :=
  fun q => m q.1 q.2.1 q.2.2

/-- Min-max normalization of `recognize_from_image` (lines 550-553):
`max_score = score_map.max()`, `min_score = score_map.min()`,
`scores = (score_map - min_score) / (max_score - min_score)`, with the
maximum and minimum taken over the whole batch of smoothed score maps. -/
def normalizeScores {n h w : ℕ} [NeZero n] [NeZero h] [NeZero w]
    (scoreMap : Fin n → Fin h → Fin w → ℚ) : Fin n → Fin h → Fin w → ℚ :=
  fun i y x =>
    (scoreMap i y x - npMin (uncurry3 scoreMap)) /
      (npMax (uncurry3 scoreMap) - npMin (uncurry3 scoreMap))

/-- Per-image outputs produced at the end of `recognize_from_image`:
the normalized heat maps `scores` and the scalar `anormal_scores`. -/
structure RecognizeOutput (n h w : ℕ) where
  scores : Fin n → Fin h → Fin w → ℚ
  anormalScores : Fin n → ℚ

/-- Tail of `recognize_from_image` (lines 511-558) from the per-location
distance maps onward: each distance map is upsampled
(`Image.fromarray(s).resize(..., resample=Image.BILINEAR)`), the score map
is Gaussian-smoothed in place (`score_map[i] = gaussian_filter(score_map[i],
sigma=4)`), the heat maps are min-max normalized, and
`anormal_scores[i] = score_map[i].max()` is taken from the smoothed,
pre-normalization score map.  The bilinear-resize and Gaussian-filter
kernels are float convolutions with no exact rational counterpart, so they
enter the embedding as function parameters applied exactly where the code
applies them. -/
def recognizeTail {n h w dh dw : ℕ} [NeZero n] [NeZero h] [NeZero w]
    (upsample : (Fin dh → Fin dw → ℚ) → Fin h → Fin w → ℚ)
    (smooth : (Fin h → Fin w → ℚ) → Fin h → Fin w → ℚ)
    (distList : Fin n → Fin dh → Fin dw → ℚ) : RecognizeOutput n h w :=
  let scoreMapUp : Fin n → Fin h → Fin w → ℚ := fun i => upsample (distList i)
  let scoreMap : Fin n → Fin h → Fin w → ℚ := fun i => smooth (scoreMapUp i)
  ⟨normalizeScores scoreMap,
   fun i => npMax (fun q : Fin h × Fin w => scoreMap i q.1 q.2)⟩

/-- C7: for every test image `i` the pipeline produces both promised
outputs: the heat map is the min-max normalized, Gaussian-smoothed,
upsampled distance map, and the scalar anomaly score equals the maximum
value of the smoothed (pre-normalization) score map of image `i`, i.e. it
is an upper bound of that map and is attained by some pixel. -/
theorem recognizeTail_outputs {n h w dh dw : ℕ} [NeZero n] [NeZero h] [NeZero w]
    (upsample : (Fin dh → Fin dw → ℚ) → Fin h → Fin w → ℚ)
    (smooth : (Fin h → Fin w → ℚ) → Fin h → Fin w → ℚ)
    (distList : Fin n → Fin dh → Fin dw → ℚ) (i : Fin n) :
    (recognizeTail upsample smooth distList).anormalScores i =
      npMax (fun q : Fin h × Fin w => smooth (upsample (distList i)) q.1 q.2) ∧
    (∀ y x, smooth (upsample (distList i)) y x ≤
      (recognizeTail upsample smooth distList).anormalScores i) ∧
    (∃ y x, (recognizeTail upsample smooth distList).anormalScores i =
      smooth (upsample (distList i)) y x) ∧
    (recognizeTail upsample smooth distList).scores =
      normalizeScores (fun j => smooth (upsample (distList j))) := by
  refine ⟨rfl, ?_, ?_, rfl⟩
  · intro y x
    exact Finset.le_sup' (fun q : Fin h × Fin w => smooth (upsample (distList i)) q.1 q.2)
      (Finset.mem_univ (y, x))
  · obtain ⟨q, _, hq⟩ := Finset.exists_mem_eq_sup' (Finset.univ_nonempty)
      (fun q : Fin h × Fin w => smooth (upsample (distList i)) q.1 q.2)
    exact ⟨q.1, q.2, hq⟩

/-- Identity resampling map on one-pixel grids, used by the C7 witness. -/
def idResample : (Fin 1 → Fin 1 → ℚ) → Fin 1 → Fin 1 → ℚ :=
  fun m => m

/-- Constant distance maps of value 5 on one image, used by the C7 witness. -/
def constDistList : Fin 1 → Fin 1 → Fin 1 → ℚ :=
  fun _ _ _ => 5

/-- Witness for C7 on a concrete one-pixel pipeline with identity upsampling
and smoothing and a distance map of constant value 5. -/
theorem recognizeTail_outputs_witness :
    (recognizeTail idResample idResample constDistList).anormalScores 0 =
      npMax (fun q : Fin 1 × Fin 1 => idResample (idResample (constDistList 0)) q.1 q.2) :=
  (recognizeTail_outputs idResample idResample constDistList 0).1

/-- C5: provided the global maximum of the smoothed score maps is strictly
greater than the global minimum, min-max normalization maps every pixel
into [0, 1], some pixel attains 0, some pixel attains 1, and normalization
preserves the ordering of pixel scores. -/
theorem normalizeScores_minmax {n h w : ℕ} [NeZero n] [NeZero h] [NeZero w]
    (scoreMap : Fin n → Fin h → Fin w → ℚ)
    (hlt : npMin (uncurry3 scoreMap) < npMax (uncurry3 scoreMap)) :
    (∀ i y x, 0 ≤ normalizeScores scoreMap i y x ∧ normalizeScores scoreMap i y x ≤ 1) ∧
    (∃ i y x, normalizeScores scoreMap i y x = 0) ∧
    (∃ i y x, normalizeScores scoreMap i y x = 1) ∧
    (∀ i y x j u v, scoreMap i y x ≤ scoreMap j u v ↔
      normalizeScores scoreMap i y x ≤ normalizeScores scoreMap j u v) := by
  have hd : 0 < npMax (uncurry3 scoreMap) - npMin (uncurry3 scoreMap) := sub_pos.2 hlt
  have hmin : ∀ i y x, npMin (uncurry3 scoreMap) ≤ scoreMap i y x := by
    intro i y x
    exact Finset.inf'_le (uncurry3 scoreMap) (Finset.mem_univ (i, y, x))
  have hmax : ∀ i y x, scoreMap i y x ≤ npMax (uncurry3 scoreMap) := by
    intro i y x
    exact Finset.le_sup' (uncurry3 scoreMap) (Finset.mem_univ (i, y, x))
  refine ⟨?_, ?_, ?_, ?_⟩
  · intro i y x
    constructor
    · exact div_nonneg (sub_nonneg.2 (hmin i y x)) (le_of_lt hd)
    · show (scoreMap i y x - npMin (uncurry3 scoreMap)) /
        (npMax (uncurry3 scoreMap) - npMin (uncurry3 scoreMap)) ≤ 1
      rw [div_le_one hd]
      exact sub_le_sub_right (hmax i y x) _
  · obtain ⟨q, _, hq⟩ := Finset.exists_mem_eq_inf' (Finset.univ_nonempty) (uncurry3 scoreMap)
    have hq2 : npMin (uncurry3 scoreMap) = scoreMap q.1 q.2.1 q.2.2 := hq
    refine ⟨q.1, q.2.1, q.2.2, ?_⟩
    have hz : scoreMap q.1 q.2.1 q.2.2 - npMin (uncurry3 scoreMap) = 0 := by
      rw [hq2, sub_self]
    show (scoreMap q.1 q.2.1 q.2.2 - npMin (uncurry3 scoreMap)) /
      (npMax (uncurry3 scoreMap) - npMin (uncurry3 scoreMap)) = 0
    rw [hz, zero_div]
  · obtain ⟨q, _, hq⟩ := Finset.exists_mem_eq_sup' (Finset.univ_nonempty) (uncurry3 scoreMap)
    have hq2 : npMax (uncurry3 scoreMap) = scoreMap q.1 q.2.1 q.2.2 := hq
    refine ⟨q.1, q.2.1, q.2.2, ?_⟩
    have hone : scoreMap q.1 q.2.1 q.2.2 - npMin (uncurry3 scoreMap) =
        npMax (uncurry3 scoreMap) - npMin (uncurry3 scoreMap) := by
      rw [hq2]
    show (scoreMap q.1 q.2.1 q.2.2 - npMin (uncurry3 scoreMap)) /
      (npMax (uncurry3 scoreMap) - npMin (uncurry3 scoreMap)) = 1
    rw [hone, div_self (ne_of_gt hd)]
  · intro i y x j u v
    show scoreMap i y x ≤ scoreMap j u v ↔
      (scoreMap i y x - npMin (uncurry3 scoreMap)) /
        (npMax (uncurry3 scoreMap) - npMin (uncurry3 scoreMap)) ≤
      (scoreMap j u v - npMin (uncurry3 scoreMap)) /
        (npMax (uncurry3 scoreMap) - npMin (uncurry3 scoreMap))
    rw [div_le_div_iff_of_pos_right hd, sub_le_sub_iff_right]

/-- Concrete smoothed score maps used by the C5 witness: one image, one row,
two pixels holding 0 and 1. -/
def witnessScoreMap : Fin 1 → Fin 1 → Fin 2 → ℚ :=
  fun _ _ x => if x = 0 then 0 else 1

/-- Witness for C5 at `witnessScoreMap`, whose global minimum 0 is strictly
below its global maximum 1. -/
theorem normalizeScores_minmax_witness :
    ∃ i y x, normalizeScores witnessScoreMap i y x = 1 :=
  (normalizeScores_minmax witnessScoreMap (by decide)).2.2.1

/-- First in-place masking pass of `plot_fig` (line 320):
`mask[mask > threshold] = 1`. -/
def binarizeStep1 {h w : ℕ} (threshold : ℚ) (s : Fin h → Fin w → ℚ) :
    Fin h → Fin w → ℚ :=
  fun y x => if threshold < s y x then 1 else s y x

/-- Second in-place masking pass of `plot_fig` (line 321):
`mask[mask <= threshold] = 0`, applied to the result of the first pass. -/
def binarizeStep2 {h w : ℕ} (threshold : ℚ) (s : Fin h → Fin w → ℚ) :
    Fin h → Fin w → ℚ :=
  fun y x => if s y x ≤ threshold then 0 else s y x

/-- Contents of the score array observed by the caller after `plot_fig`
returns: `mask = scores[i]` is a numpy view, not a copy, so the two masking
passes mutate the array of the caller for every image `i` (the later
`mask = morphology.opening(...)` rebinds the name and leaves the array
alone). -/
def plotFigScores {n h w : ℕ} (threshold : ℚ) (scores : Fin n → Fin h → Fin w → ℚ) :
    Fin n → Fin h → Fin w → ℚ :=
  fun i => binarizeStep2 threshold (binarizeStep1 threshold (scores i))

/-- C9: for score values bounded by 1 (as the normalized scores are),
after `plot_fig` returns the array of the caller holds, for every image,
1 where the score exceeded the threshold and 0 elsewhere; in particular no
continuous heat-map value survives, every entry being 0 or 1. -/
theorem plotFigScores_binarizes {n h w : ℕ} (threshold : ℚ)
    (scores : Fin n → Fin h → Fin w → ℚ)
    (hb : ∀ i y x, scores i y x ≤ 1) :
    ∀ i y x,
      plotFigScores threshold scores i y x =
        (if threshold < scores i y x then 1 else 0) ∧
      (plotFigScores threshold scores i y x = 0 ∨
        plotFigScores threshold scores i y x = 1) := by
  intro i y x
  by_cases hc : threshold < scores i y x
  · have h1 : ¬ (1 : ℚ) ≤ threshold := by
      intro hle
      exact absurd (hb i y x) (not_le.2 (lt_of_le_of_lt hle hc))
    constructor
    · simp [plotFigScores, binarizeStep1, binarizeStep2, hc, h1]
    · right
      simp [plotFigScores, binarizeStep1, binarizeStep2, hc, h1]
  · have hle : scores i y x ≤ threshold := not_lt.1 hc
    constructor
    · simp [plotFigScores, binarizeStep1, binarizeStep2, hc, hle]
    · left
      simp [plotFigScores, binarizeStep1, binarizeStep2, hc, hle]

/-- Witness for C9 on a one-pixel score array holding 1/2 with threshold
1/4: the caller observes the value 1. -/
theorem plotFigScores_binarizes_witness :
    plotFigScores (1 / 4 : ℚ) (fun _ _ _ => (1 / 2 : ℚ)) (0 : Fin 1) (0 : Fin 1) (0 : Fin 1) =
      (if (1 / 4 : ℚ) < (1 / 2 : ℚ) then 1 else 0) :=
  (plotFigScores_binarizes (1 / 4 : ℚ) (fun _ _ _ => (1 / 2 : ℚ))
    (fun _ _ _ => by norm_num) 0 0 0).1

/-- Filename filter of `get_train_outputs` (line 200): keeps files ending
in .png, .jpg or .bmp.  Filenames are modelled as lists of characters and
`str.endswith` as a suffix test. -/
def isTrainImage (f : List Char) : Bool :=
  ".png".data.isSuffixOf f || ".jpg".data.isSuffixOf f || ".bmp".data.isSuffixOf f

/-- Control-flow outcome of `get_train_outputs` (lines 188-204): load the
pickled features when `args.feat` is given, otherwise list and filter the
training directory and exit the process with status -1 when no training
image is found; only otherwise does feature extraction proceed. -/
inductive TrainBranch
  | loadFeat
  | exitProcess (code : ℤ)
  | extractFeatures (trainImgs : List (List Char))

/-- Branch taken by `get_train_outputs` as a function of `args.feat` and the
directory listing. -/
def getTrainOutputsBranch (feat : Option (List Char)) (dirFiles : List (List Char)) :
    TrainBranch :=
  match feat with
  | some _ => TrainBranch.loadFeat
  | none =>
      let trainImgs :=
        (dirFiles.filter fun f => isTrainImage f).mergeSort fun a b => decide (a ≤ b)
      if trainImgs.length = 0 then TrainBranch.exitProcess (-1)
      else TrainBranch.extractFeatures trainImgs

/-- Control-flow outcome of the input check in `main` (lines 610-615):
with an empty input list, `main` logs an error and returns before
`recognize_from_image` (and hence any network inference) is reached. -/
inductive MainBranch
  | inputNotFound
  | runInference

/-- Branch taken by `main` as a function of `args.input`. -/
def mainBranch (input : List (List Char)) : MainBranch :=
  if input.length = 0 then MainBranch.inputNotFound else MainBranch.runInference

/-- C10: the program fails fast on empty inputs: with no feature pickle and
a training directory containing no file ending in .png, .jpg or .bmp,
`get_train_outputs` exits the process with status -1, and with an empty
input list `main` returns before any inference. -/
theorem emptyInputs_failFast (dirFiles : List (List Char))
    (hno : ∀ f ∈ dirFiles, isTrainImage f = false) :
    getTrainOutputsBranch none dirFiles = TrainBranch.exitProcess (-1) ∧
    mainBranch [] = MainBranch.inputNotFound := by
  constructor
  · have hfilter : dirFiles.filter (fun f => isTrainImage f) = [] := by
      rw [List.filter_eq_nil_iff]
      intro a ha
      simp [hno a ha]
    simp [getTrainOutputsBranch, hfilter]
  · rfl

/-- Witness for C10 on a directory listing holding a single non-image file. -/
theorem emptyInputs_failFast_witness :
    getTrainOutputsBranch none ["readme.txt".data] = TrainBranch.exitProcess (-1) :=
  (emptyInputs_failFast ["readme.txt".data] (by decide)).1

/-- Maximum value of a list of rationals (0 on the empty list). -/
def listMax : List ℚ → ℚ
  | [] => 0
  | [a] => a
  | a :: b :: rest => max a (listMax (b :: rest))

/-- Model of `np.argmax`: the index of the first occurrence of the maximum. -/
def npArgmax (l : List ℚ) : ℕ :=
  List.indexOf (listMax l) l

/-- Model of `np.unique` as used inside `precision_recall_curve`: the
distinct score values in increasing order. -/
def npUnique (l : List ℚ) : List ℚ :=
  List.insertionSort (fun a b => a ≤ b) l.dedup

/-- True positives at a candidate threshold `t`: ground-truth-positive
pixels whose score is at least `t` (a sample is predicted positive at a
curve threshold when its score reaches the threshold). -/
def tpAt (pairs : List (Bool × ℚ)) (t : ℚ) : ℕ :=
  (pairs.filter fun pr => pr.1 && decide (t ≤ pr.2)).length

/-- False positives at a candidate threshold `t`. -/
def fpAt (pairs : List (Bool × ℚ)) (t : ℚ) : ℕ :=
  (pairs.filter fun pr => !pr.1 && decide (t ≤ pr.2)).length

/-- Number of ground-truth-positive pixels. -/
def posTotal (pairs : List (Bool × ℚ)) : ℕ :=
  (pairs.filter fun pr => pr.1).length

/-- Precision of the curve point at threshold `t` (rational division, with
the sklearn convention that an undefined precision counts as 0). -/
def precisionAt (pairs : List (Bool × ℚ)) (t : ℚ) : ℚ :=
  (tpAt pairs t : ℚ) / ((tpAt pairs t : ℚ) + (fpAt pairs t : ℚ))

/-- Recall of the curve point at threshold `t`. -/
def recallAt (pairs : List (Bool × ℚ)) (t : ℚ) : ℚ :=
  (tpAt pairs t : ℚ) / (posTotal pairs : ℚ)

/-- F1 value computed at lines 567-569:
`np.divide(2 * precision * recall, precision + recall, out=np.zeros_like(a),
where=(b != 0))`, i.e. F1 is 0 whenever precision + recall = 0. -/
def f1Of (p r : ℚ) : ℚ :=
  if p + r = 0 then 0 else 2 * p * r / (p + r)

/-- Curve thresholds returned by `precision_recall_curve`: the distinct
score values in increasing order. -/
def thresholdsOf (pairs : List (Bool × ℚ)) : List ℚ :=
  npUnique (pairs.map Prod.snd)

/-- F1 values along the precision-recall curve, including the final curve
point (precision 1, recall 0) that `precision_recall_curve` appends without
a threshold. -/
def f1List (pairs : List (Bool × ℚ)) : List ℚ :=
  ((thresholdsOf pairs).map fun t => f1Of (precisionAt pairs t) (recallAt pairs t)) ++
    [f1Of 1 0]

/-- Threshold selected at line 570: `thresholds[np.argmax(f1)]`. -/
def optimalThreshold (pairs : List (Bool × ℚ)) : ℚ :=
  (thresholdsOf pairs).getD (npArgmax (f1List pairs)) 0

/-- Threshold used by `recognize_from_image` (lines 560-573): the optimal
curve threshold when no `--threshold` argument was given (with the
ground-truth list restricted to its first `len / aug_num` entries when
augmentation is on), and the user-supplied threshold unchanged otherwise. -/
def chooseThreshold (thOpt : Option ℚ) (aug : Bool) (augNum : ℕ)
    (gtImgs : List (List Bool)) (scores : List ℚ) : ℚ :=
  match thOpt with
  | some t => t
  | none =>
      let gtMask := if aug then gtImgs.take (gtImgs.length / augNum) else gtImgs
      optimalThreshold (gtMask.flatten.zip scores)

lemma le_listMax : ∀ {l : List ℚ} {x : ℚ}, x ∈ l → x ≤ listMax l := by
  intro l
  induction l with
  | nil => intro x hx; cases hx
  | cons a rest ih =>
      intro x hx
      cases rest with
      | nil =>
          rcases List.mem_singleton.1 hx with rfl
          exact le_refl _
      | cons b rest2 =>
          rcases List.mem_cons.1 hx with rfl | hmem
          · exact le_max_left _ _
          · exact le_trans (ih hmem) (le_max_right _ _)

lemma listMax_mem : ∀ {l : List ℚ}, l ≠ [] → listMax l ∈ l := by
  intro l
  induction l with
  | nil => intro h; exact absurd rfl h
  | cons a rest ih =>
      intro _
      cases rest with
      | nil => exact List.mem_cons_self _ _
      | cons b rest2 =>
          rcases le_total a (listMax (b :: rest2)) with hab | hab
          · have hmax : listMax (a :: b :: rest2) = listMax (b :: rest2) :=
              max_eq_right hab
            rw [hmax]
            exact List.mem_cons_of_mem _ (ih (by simp))
          · have hmax : listMax (a :: b :: rest2) = a := max_eq_left hab
            rw [hmax]
            exact List.mem_cons_self _ _

lemma npArgmax_lt_length {l : List ℚ} (h : l ≠ []) : npArgmax l < l.length :=
  List.indexOf_lt_length.2 (listMax_mem h)

lemma getD_npArgmax {l : List ℚ} (h : l ≠ []) : l.getD (npArgmax l) 0 = listMax l := by
  have hlt := npArgmax_lt_length h
  rw [List.getD_eq_getElem _ _ hlt]
  exact List.getElem_indexOf hlt

lemma precisionAt_nonneg (pairs : List (Bool × ℚ)) (t : ℚ) : 0 ≤ precisionAt pairs t :=
  div_nonneg (Nat.cast_nonneg _) (add_nonneg (Nat.cast_nonneg _) (Nat.cast_nonneg _))

lemma recallAt_nonneg (pairs : List (Bool × ℚ)) (t : ℚ) : 0 ≤ recallAt pairs t :=
  div_nonneg (Nat.cast_nonneg _) (Nat.cast_nonneg _)

lemma f1Of_nonneg {p r : ℚ} (hp : 0 ≤ p) (hr : 0 ≤ r) : 0 ≤ f1Of p r := by
  rw [f1Of]
  split
  · exact le_refl 0
  · exact div_nonneg (mul_nonneg (mul_nonneg (by norm_num) hp) hr) (add_nonneg hp hr)

lemma f1List_mem_nonneg {pairs : List (Bool × ℚ)} :
    ∀ x ∈ f1List pairs, 0 ≤ x := by
  intro x hx
  rcases List.mem_append.1 hx with hx | hx
  · obtain ⟨t, _, rfl⟩ := List.mem_map.1 hx
    exact f1Of_nonneg (precisionAt_nonneg pairs t) (recallAt_nonneg pairs t)
  · rcases List.mem_singleton.1 hx with rfl
    exact f1Of_nonneg (by norm_num) (le_refl 0)

lemma f1List_ne_nil (pairs : List (Bool × ℚ)) : f1List pairs ≠ [] := by
  simp [f1List]

lemma thresholdsOf_ne_nil {pairs : List (Bool × ℚ)} (h : pairs ≠ []) :
    thresholdsOf pairs ≠ [] := by
  obtain ⟨pr, l, rfl⟩ := List.exists_cons_of_ne_nil h
  have hmem : pr.2 ∈ ((pr :: l).map Prod.snd).dedup := by
    rw [List.mem_dedup]
    exact List.mem_map.2 ⟨pr, List.mem_cons_self _ _, rfl⟩
  exact List.ne_nil_of_mem ((List.mem_insertionSort _).2 hmem)

lemma npArgmax_f1List_lt {pairs : List (Bool × ℚ)} (h : pairs ≠ []) :
    npArgmax (f1List pairs) < (thresholdsOf pairs).length := by
  have hts := thresholdsOf_ne_nil h
  have hfs_ne := f1List_ne_nil pairs
  have hlen : (f1List pairs).length = (thresholdsOf pairs).length + 1 := by
    simp [f1List]
  have harglt : npArgmax (f1List pairs) < (f1List pairs).length :=
    npArgmax_lt_length hfs_ne
  rcases lt_or_ge (npArgmax (f1List pairs)) (thresholdsOf pairs).length with hlt | hge
  · exact hlt
  · exfalso
    have heq : npArgmax (f1List pairs) = (thresholdsOf pairs).length := by omega
    have hval : (f1List pairs).getD (npArgmax (f1List pairs)) 0 = listMax (f1List pairs) :=
      getD_npArgmax hfs_ne
    have hget0 : (f1List pairs).getD (npArgmax (f1List pairs)) 0 = f1Of 1 0 := by
      rw [heq, f1List, List.getD_append_right _ _ _ _ (by simp)]
      simp
    have hlast : f1Of (1 : ℚ) 0 = 0 := by norm_num [f1Of]
    have hmax0 : listMax (f1List pairs) = 0 := by
      rw [← hval, hget0, hlast]
    obtain ⟨t0, ts2, hts_eq⟩ := List.exists_cons_of_ne_nil hts
    have hfs_eq : f1List pairs =
        f1Of (precisionAt pairs t0) (recallAt pairs t0) ::
          ((ts2.map fun t => f1Of (precisionAt pairs t) (recallAt pairs t)) ++
            [f1Of 1 0]) := by
      rw [f1List, hts_eq]
      simp
    have hmemhead : f1Of (precisionAt pairs t0) (recallAt pairs t0) ∈ f1List pairs := by
      rw [hfs_eq]
      exact List.mem_cons_self _ _
    have hhead0 : f1Of (precisionAt pairs t0) (recallAt pairs t0) = 0 := by
      have h1 := f1List_mem_nonneg _ hmemhead
      have h2 := le_listMax hmemhead
      rw [hmax0] at h2
      linarith
    have hzero : npArgmax (f1List pairs) = 0 := by
      rw [npArgmax, hmax0, hfs_eq, hhead0]
      exact List.indexOf_cons_self _ _
    rw [hzero] at heq
    rw [hts_eq] at heq
    simp at heq

/-- C6: the threshold search of `recognize_from_image` is optional and
F1-optimal: a user-supplied threshold passes through unchanged; without one
the threshold is taken from the precision-recall curve of the flattened
scores against the flattened ground-truth masks (restricted to the first
`len / aug_num` masks when augmentation is on) at the index `np.argmax`
selects, that index lies inside the threshold array, and its F1 value
(with F1 = 0 whenever precision + recall = 0) is maximal along the curve. -/
theorem chooseThreshold_f1_optimal (aug : Bool) (augNum : ℕ)
    (gtImgs : List (List Bool)) (scores : List ℚ) :
    (∀ t : ℚ, chooseThreshold (some t) aug augNum gtImgs scores = t) ∧
    chooseThreshold none aug augNum gtImgs scores =
      optimalThreshold
        ((if aug then gtImgs.take (gtImgs.length / augNum) else gtImgs).flatten.zip
          scores) ∧
    (∀ pairs : List (Bool × ℚ), pairs ≠ [] →
      npArgmax (f1List pairs) < (thresholdsOf pairs).length ∧
      optimalThreshold pairs =
        (thresholdsOf pairs).getD (npArgmax (f1List pairs)) 0 ∧
      ∀ j, j < (f1List pairs).length →
        (f1List pairs).getD j 0 ≤ (f1List pairs).getD (npArgmax (f1List pairs)) 0) := by
  refine ⟨fun t => rfl, rfl, ?_⟩
  intro pairs hne
  refine ⟨npArgmax_f1List_lt hne, rfl, ?_⟩
  intro j hj
  rw [getD_npArgmax (f1List_ne_nil pairs), List.getD_eq_getElem _ _ hj]
  exact le_listMax (List.getElem_mem hj)

/-- Witness for C6 on a one-pixel ground truth and score list: the supplied
threshold 7 passes through, and on the nonempty pair list the selected
index is inside the threshold array. -/
theorem chooseThreshold_f1_optimal_witness :
    chooseThreshold (some 7) false 1 [[true]] [(1 : ℚ)] = 7 ∧
    npArgmax (f1List [(true, (1 : ℚ))]) < (thresholdsOf [(true, (1 : ℚ))]).length :=
  ⟨(chooseThreshold_f1_optimal false 1 [[true]] [(1 : ℚ)]).1 7,
   ((chooseThreshold_f1_optimal false 1 [[true]] [(1 : ℚ)]).2.2
      [(true, (1 : ℚ))] (by decide)).1⟩

end Padim
